import Mathlib

/-!
Shallow embedding of the text-aligner core (src/lib.rs) together with proofs
about the wrapping and alignment pipeline.

Modelling conventions:
* Strings are lists of characters.  The program measures width with Rust byte
  length and the spec restricts width measurement to basic code units, so
  character count is the faithful measure for the inputs in scope.
* A Rust panic is modelled by `Option.none` inside a component, and by the
  `panicked` outcome at the level of `process` and `run`, carrying the output
  written to the sink before the panic.
* `usize` subtraction is modelled as checked subtraction (`usizeSub`): the
  debug profile aborts on underflow.  (The release profile wraps modulo 2^64
  instead; where this distinction matters it is discussed at the theorem.)
* The output sink is modelled by accumulating the written fragments into one
  character list, since a fragment write is plain concatenation.
-/

namespace TextAligner

abbrev Word := List Char

/-- Rust `str::split(c)` from `run`: splitting the empty string yields one
empty piece, and every separator occurrence starts a new piece. -/
def splitOnChar (c : Char) (s : List Char) : List Word :=
  List.foldr
    (fun ch acc =>
      if ch = c then [] :: acc
      else
        match acc with
        | [] => [[ch]]
        | w :: ws => (ch :: w) :: ws)
    [[]] s

/-- Checked `usize` subtraction; `none` models the debug-profile overflow
abort of `a - b` when `b > a`. -/
def usizeSub (a b : Nat) : Option Nat :=
  if b ≤ a then some (a - b) else none

/-- `LineState` from the source. -/
inductive LineState where
  | Wrap
  | NextWord
deriving DecidableEq

/-- `Line` from the source: accumulated words plus derived counters. -/
structure Line where
  words_count : Nat
  len : Nat
  max_len : Nat
  words : List Word
deriving DecidableEq

/-- `Line::new`. -/
def Line.new (max_len : Nat) : Line :=
  { words_count := 0, len := 0, max_len := max_len, words := [] }

/-- `Line::push`.  `none` models the `WordTooLong` panic raised when the
word alone exceeds `max_len`. -/
def Line.push (l : Line) (word : Word) : Option (Line × LineState) :=
  let word_len := word.length
  if word_len > l.max_len then
    none
  else
    let word_len := if l.words_count ≠ 0 then word_len + 1 else word_len
    if word_len + l.len ≤ l.max_len then
      some ({ l with
                words := l.words ++ [word]
                len := l.len + word_len
                words_count := l.words_count + 1 }, LineState.NextWord)
    else
      some (l, LineState.Wrap)

/-- `Line::clear`. -/
def Line.clear (l : Line) : Line :=
  { l with words_count := 0, len := 0, words := [] }

/-- The `Align::Left` rendering closure of `run`: first word bare, then each
further word preceded by one space.  `none` models the `unwrap` panic on an
empty line. -/
def renderLeft (line : Line) (_len : Nat) : Option (List Char) :=
  match line.words with
  | [] => none
  | w :: ws => some (w ++ (ws.map (fun v => ' ' :: v)).flatten)

/-- The `Align::Right` rendering closure of `run`: `len - line.len` leading
spaces, then the Left layout. -/
def renderRight (line : Line) (len : Nat) : Option (List Char) :=
  match usizeSub len line.len with
  | none => none
  | some free_space =>
    match line.words with
    | [] => none
    | w :: ws =>
      some (List.replicate free_space ' ' ++ w ++ (ws.map (fun v => ' ' :: v)).flatten)

/-- The per-gap writes of the `Align::Justify` closure: for each remaining
word, `big_jump` spaces, one more space while `small_jump` is nonzero
(decrementing it), then one mandatory space and the word. -/
def justifyGaps (big_jump : Nat) : Nat → List Word → List Char
  | _, [] => []
  | small_jump, w :: ws =>
      List.replicate big_jump ' ' ++
        (if small_jump ≠ 0 then [' '] else []) ++
        (' ' :: w) ++
        justifyGaps big_jump (if small_jump ≠ 0 then small_jump - 1 else small_jump) ws

/-- The `Align::Justify` rendering closure of `run`. -/
def renderJustify (line : Line) (len : Nat) : Option (List Char) :=
  match usizeSub len line.len with
  | none => none
  | some free_space =>
    match (if line.words_count = 1 then some 1 else usizeSub line.words_count 1) with
    | none => none
    | some gaps =>
      match line.words with
      | [] => none
      | w :: ws => some (w ++ justifyGaps (free_space / gaps) (free_space % gaps) ws)

/-- `Align` from the source. -/
inductive Align where
  | Left
  | Right
  | Justify
deriving DecidableEq

/-- The dispatch performed by the `match align` in `run`: which rendering
closure is handed to `process`. -/
def alignRender : Align → Line → Nat → Option (List Char)
  | Align.Left => renderLeft
  | Align.Right => renderRight
  | Align.Justify => renderJustify

/-- Result of `process`: either a panic or normal completion, each carrying
the characters written to the sink up to that point. -/
inductive Outcome where
  | panicked (written : List Char)
  | finished (written : List Char)
deriving DecidableEq

/-- The block of `process` that runs after the word iterator is exhausted
(`if line.words_count > 0 { ... }`): drop the final character of the last
word, decrement the recorded length, render the line, write a newline. -/
def processEnd (on_line_wrap : Line → Nat → Option (List Char)) (max_len : Nat)
    (line : Line) (out : List Char) : Outcome :=
  if line.words_count > 0 then
    match line.words.getLast? with
    | none => Outcome.panicked out
    | some last_word =>
      match usizeSub line.len 1 with
      | none => Outcome.panicked out
      | some len2 =>
        match on_line_wrap
            { line with
                words := line.words.dropLast ++ [last_word.dropLast]
                len := len2 } max_len with
        | none => Outcome.panicked out
        | some frag => Outcome.finished (out ++ frag ++ ['\n'])
  else Outcome.finished out

/-- The labelled loop of `process`: push each word; on `Wrap` render the
current line, clear it, re-push the word and write a newline; at the end run
the final-line block (`processEnd`). -/
def processGo (on_line_wrap : Line → Nat → Option (List Char)) (max_len : Nat) :
    List Word → Line → List Char → Outcome
  | [], line, out => processEnd on_line_wrap max_len line out
  | word :: rest, line, out =>
    match line.push word with
    | none => Outcome.panicked out
    | some (line2, LineState.NextWord) => processGo on_line_wrap max_len rest line2 out
    | some (_, LineState.Wrap) =>
      match on_line_wrap line max_len with
      | none => Outcome.panicked out
      | some frag =>
        match line.clear.push word with
        | none => Outcome.panicked (out ++ frag)
        | some (line2, _) => processGo on_line_wrap max_len rest line2 (out ++ frag ++ ['\n'])

/-- `process` from the source. -/
def process (on_line_wrap : Line → Nat → Option (List Char)) (words : List Word)
    (max_len : Nat) : Outcome :=
  processGo on_line_wrap max_len words (Line.new max_len) []

instance : DecidableEq (Except String Unit)
  | Except.ok (), Except.ok () => isTrue rfl
  | Except.ok (), Except.error _ => isFalse (fun h => Except.noConfusion h)
  | Except.error _, Except.ok () => isFalse (fun h => Except.noConfusion h)
  | Except.error a, Except.error b =>
      if h : a = b then isTrue (by rw [h])
      else isFalse (fun hab => h (by cases hab; rfl))

/-- Result of `run`: either a panic, or a normal return carrying the written
characters and the value of the Rust `Result` channel. -/
inductive RunOutcome where
  | panicked (written : List Char)
  | returned (written : List Char) (result : Except String Unit)
deriving DecidableEq

/-- `run` from the source: tokenize on spaces, dispatch the rendering closure
on the mode, call `process`, and finally return `Ok(())`. -/
def run (content : List Char) (max_len : Nat) (align : Align) : RunOutcome :=
  match process (alignRender align) (splitOnChar ' ' content) max_len with
  | Outcome.panicked out => RunOutcome.panicked out
  | Outcome.finished out => RunOutcome.returned out (Except.ok ())

/-! ### Specification-side vocabulary

Definitions used to state properties of the program: the length accounting of
a packed line, the word recovery pipeline of the spec (split the output on
line terminators, collapse separator runs, read off the words), and the word
sequence remaining after the final-word trim performed by `process`. -/

/-- Width of a word sequence laid out with single separating spaces: the sum
of the word lengths plus one per gap.  This is the quantity the source tracks
in `Line.len`. -/
def contentLen : List Word → Nat
  | [] => 0
  | [w] => w.length
  | w :: ws => w.length + 1 + contentLen ws

/-- Words read off one rendered line: split on spaces and drop the empty
pieces (this collapses separator runs and ignores padding). -/
def tokens (l : List Char) : List Word :=
  (splitOnChar ' ' l).filter (fun w => w ≠ [])

/-- The pieces of the emitted output delimited by line terminators. -/
def linesOf (out : List Char) : List (List Char) :=
  splitOnChar '\n' out

/-- The word sequence recovered from the emitted output: words of each line,
concatenated in order. -/
def wordsOfOutput (out : List Char) : List Word :=
  ((linesOf out).map tokens).flatten

/-- A word sequence with the last character of its last word removed: the
word sequence actually rendered by `process`. -/
def stripLast : List Word → List Word
  | [] => []
  | [w] => [w.dropLast]
  | w :: ws => w :: stripLast ws

/-- Well-formed word sequence: nonempty; every word nonempty and free of
spaces; every word before the last free of line terminators; the last word of
length at least two with a line terminator at most in final position. -/
def GoodSeq : List Word → Prop
  | [] => False
  | [w] => w ≠ [] ∧ ' ' ∉ w ∧ '\n' ∉ w.dropLast ∧ 2 ≤ w.length
  | w :: ws => (w ≠ [] ∧ ' ' ∉ w ∧ '\n' ∉ w) ∧ GoodSeq ws

instance GoodSeq.dec : (l : List Word) → Decidable (GoodSeq l)
  | [] => isFalse (fun h => h)
  | [_] => by unfold GoodSeq; exact inferInstance
  | _ :: _ :: _ => by
      unfold GoodSeq
      exact @instDecidableAnd _ _ _ (GoodSeq.dec _)

/-- Sanity of a `Line` at the moment a rendering closure is invoked: counters
consistent with the stored words, content within the width, and words
nonempty and free of spaces and line terminators. -/
def LSane (max_len : Nat) (l : Line) : Prop :=
  l.words_count = l.words.length ∧ l.len = contentLen l.words ∧
    l.len ≤ max_len ∧ l.words ≠ [] ∧
    ∀ w ∈ l.words, w ≠ [] ∧ ' ' ∉ w ∧ '\n' ∉ w

/-! ### Lemmas about splitting -/

theorem splitOnChar_nil (c : Char) : splitOnChar c [] = [[]] := rfl

theorem splitOnChar_cons (c ch : Char) (s : List Char) :
    splitOnChar c (ch :: s) =
      (if ch = c then [] :: splitOnChar c s
       else
         match splitOnChar c s with
         | [] => [[ch]]
         | w :: ws => (ch :: w) :: ws) := rfl

theorem splitOnChar_ne_nil (c : Char) (s : List Char) : splitOnChar c s ≠ [] := by
  induction s with
  | nil => simp [splitOnChar_nil]
  | cons ch s ih =>
      rw [splitOnChar_cons]
      by_cases h : ch = c
      · simp [h]
      · simp only [if_neg h]
        cases hs : splitOnChar c s with
        | nil => simp
        | cons w ws => simp

theorem splitOnChar_append_cons (c : Char) (xs ys : List Char) :
    splitOnChar c (xs ++ c :: ys) = splitOnChar c xs ++ splitOnChar c ys := by
  induction xs with
  | nil => simp [splitOnChar_cons, splitOnChar_nil]
  | cons a xs ih =>
      rw [List.cons_append, splitOnChar_cons, splitOnChar_cons, ih]
      by_cases h : a = c
      · simp [h]
      · simp only [if_neg h]
        cases hs : splitOnChar c xs with
        | nil => exact absurd hs (splitOnChar_ne_nil c xs)
        | cons w ws => simp

theorem splitOnChar_of_not_mem {c : Char} {s : List Char} (h : c ∉ s) :
    splitOnChar c s = [s] := by
  induction s with
  | nil => rfl
  | cons a s ih =>
      rw [splitOnChar_cons]
      have ha : a ≠ c := fun hac => h (hac ▸ List.mem_cons_self a s)
      have hs : c ∉ s := fun hc => h (List.mem_cons_of_mem a hc)
      rw [if_neg ha, ih hs]

/-! ### Lemmas about word recovery from rendered lines -/

theorem tokens_nil : tokens [] = [] := rfl

theorem tokens_space_cons (l : List Char) : tokens (' ' :: l) = tokens l := by
  unfold tokens
  rw [splitOnChar_cons, if_pos rfl]
  simp

theorem tokens_replicate_append (l : List Char) :
    ∀ n, tokens (List.replicate n ' ' ++ l) = tokens l := by
  intro n
  induction n with
  | zero => rfl
  | succ n ih => rw [List.replicate_succ, List.cons_append, tokens_space_cons, ih]

theorem tokens_of_word {w : Word} (hne : w ≠ []) (hsp : ' ' ∉ w) :
    tokens w = [w] := by
  unfold tokens
  rw [splitOnChar_of_not_mem hsp]
  simp [hne]

theorem tokens_word_append {w : Word} (l : List Char) (hne : w ≠ []) (hsp : ' ' ∉ w) :
    tokens (w ++ ' ' :: l) = w :: tokens l := by
  unfold tokens
  rw [splitOnChar_append_cons, splitOnChar_of_not_mem hsp]
  simp [hne]

theorem tokens_leftJoin :
    ∀ (ws : List Word) (w : Word), w ≠ [] → ' ' ∉ w →
      (∀ v ∈ ws, v ≠ [] ∧ ' ' ∉ v) →
      tokens (w ++ (ws.map (fun v => ' ' :: v)).flatten) = w :: ws := by
  intro ws
  induction ws with
  | nil => intro w hne hsp _; simpa using tokens_of_word hne hsp
  | cons v vs ih =>
      intro w hne hsp hall
      have hstep : w ++ ((v :: vs).map (fun v => ' ' :: v)).flatten =
          w ++ ' ' :: (v ++ (vs.map (fun v => ' ' :: v)).flatten) := by
        simp
      rw [hstep, tokens_word_append _ hne hsp,
        ih v (hall v (List.mem_cons_self v vs)).1 (hall v (List.mem_cons_self v vs)).2
          (fun u hu => hall u (List.mem_cons_of_mem v hu))]

theorem replicate_append_cons_self (c : Char) (t : List Char) :
    ∀ n, List.replicate n c ++ c :: t = c :: (List.replicate n c ++ t) := by
  intro n
  induction n with
  | zero => rfl
  | succ n ih => rw [List.replicate_succ, List.cons_append, ih]; rfl

theorem justifyGaps_cons (big small : Nat) (v : Word) (vs : List Word) :
    justifyGaps big small (v :: vs) =
      ' ' :: (List.replicate (big + (if small ≠ 0 then 1 else 0)) ' ' ++
        (v ++ justifyGaps big (if small ≠ 0 then small - 1 else small) vs)) := by
  by_cases h : small ≠ 0
  · simp only [justifyGaps, if_pos h]
    rw [List.replicate_add]
    simp [replicate_append_cons_self]
  · simp only [justifyGaps, if_neg h]
    simp [replicate_append_cons_self]

theorem tokens_justifyGaps (big : Nat) :
    ∀ (ws : List Word) (small : Nat) (w : Word), w ≠ [] → ' ' ∉ w →
      (∀ v ∈ ws, v ≠ [] ∧ ' ' ∉ v) →
      tokens (w ++ justifyGaps big small ws) = w :: ws := by
  intro ws
  induction ws with
  | nil => intro small w hne hsp _; simpa [justifyGaps] using tokens_of_word hne hsp
  | cons v vs ih =>
      intro small w hne hsp hall
      rw [justifyGaps_cons, tokens_word_append _ hne hsp, tokens_replicate_append,
        ih _ v (hall v (List.mem_cons_self v vs)).1 (hall v (List.mem_cons_self v vs)).2
          (fun u hu => hall u (List.mem_cons_of_mem v hu))]

/-! ### Lemmas about characters occurring in rendered lines -/

theorem nl_not_mem_sep_flatten {ws : List Word} (h : ∀ v ∈ ws, '\n' ∉ v) :
    '\n' ∉ (ws.map (fun v => ' ' :: v)).flatten := by
  intro hmem
  rw [List.mem_flatten] at hmem
  obtain ⟨l, hl, hcl⟩ := hmem
  rw [List.mem_map] at hl
  obtain ⟨v, hv, rfl⟩ := hl
  rcases List.mem_cons.mp hcl with h1 | h2
  · exact absurd h1 (by decide)
  · exact h v hv h2

theorem nl_not_mem_replicate (n : Nat) : '\n' ∉ List.replicate n ' ' := by
  intro h
  rw [List.mem_replicate] at h
  exact absurd h.2 (by decide)

theorem nl_not_mem_justifyGaps (big : Nat) :
    ∀ (ws : List Word) (small : Nat), (∀ v ∈ ws, '\n' ∉ v) →
      '\n' ∉ justifyGaps big small ws := by
  intro ws
  induction ws with
  | nil => intro small _ h; exact absurd h (by simp [justifyGaps])
  | cons v vs ih =>
      intro small hall hmem
      rw [justifyGaps_cons] at hmem
      rcases List.mem_cons.mp hmem with h1 | h2
      · exact absurd h1 (by decide)
      rcases List.mem_append.mp h2 with h3 | h4
      · exact nl_not_mem_replicate _ h3
      rcases List.mem_append.mp h4 with h5 | h6
      · exact hall v (List.mem_cons_self v vs) h5
      · exact ih _ (fun u hu => hall u (List.mem_cons_of_mem v hu)) h6

/-! ### Length accounting -/

theorem contentLen_cons_of_ne {w : Word} {ws : List Word} (h : ws ≠ []) :
    contentLen (w :: ws) = w.length + 1 + contentLen ws := by
  cases ws with
  | nil => exact absurd rfl h
  | cons v vs => rfl

theorem contentLen_expand :
    ∀ (ws : List Word) (w : Word),
      contentLen (w :: ws) = w.length + ws.length + (ws.map List.length).sum := by
  intro ws
  induction ws with
  | nil => intro w; simp [contentLen]
  | cons v vs ih =>
      intro w
      rw [contentLen_cons_of_ne (by simp), ih v]
      simp
      omega

theorem contentLen_append_singleton (ws : List Word) (w : Word) :
    contentLen (ws ++ [w]) =
      contentLen ws + w.length + (if ws = [] then 0 else 1) := by
  cases ws with
  | nil => simp [contentLen]
  | cons a as =>
      rw [List.cons_append, contentLen_expand, contentLen_expand]
      simp
      omega

theorem getLast?_length_le_contentLen :
    ∀ {l : List Word} {w : Word}, l.getLast? = some w → w.length ≤ contentLen l := by
  intro l
  induction l with
  | nil => intro w h; simp at h
  | cons v vs ih =>
      intro w h
      cases vs with
      | nil =>
          simp [List.getLast?] at h
          subst h; simp [contentLen]
      | cons u us =>
          rw [List.getLast?_cons_cons] at h
          rw [contentLen_cons_of_ne (by simp)]
          have := ih h
          omega

theorem length_sep_flatten (ws : List Word) :
    ((ws.map (fun v => ' ' :: v)).flatten).length = ws.length + (ws.map List.length).sum := by
  induction ws with
  | nil => rfl
  | cons v vs ih => simp at ih ⊢; omega

theorem length_justifyGaps (big : Nat) :
    ∀ (ws : List Word) (small : Nat),
      (justifyGaps big small ws).length =
        ws.length * (big + 1) + min small ws.length + (ws.map List.length).sum := by
  intro ws
  induction ws with
  | nil => intro small; simp [justifyGaps]
  | cons v vs ih =>
      intro small
      rw [justifyGaps_cons]
      by_cases h : small = 0
      · subst h
        simp only [ne_eq, not_true_eq_false, if_false, List.length_cons,
          List.length_append, List.length_replicate, ih 0, List.map_cons,
          List.sum_cons, Nat.succ_mul, Nat.zero_min, Nat.min_zero]
        omega
      · simp only [ne_eq, h, not_false_eq_true, if_true, List.length_cons,
          List.length_append, List.length_replicate, ih (small - 1),
          List.map_cons, List.sum_cons, Nat.succ_mul]
        have hs : small - 1 + 1 = small := Nat.succ_pred_eq_of_pos (Nat.pos_of_ne_zero h)
        have hmin : min small (vs.length + 1) = min (small - 1) vs.length + 1 := by
          calc min small (vs.length + 1) = min (small - 1 + 1) (vs.length + 1) := by rw [hs]
            _ = min (small - 1) vs.length + 1 := Nat.succ_min_succ _ _
        omega

/-! ### stripLast and GoodSeq -/

theorem stripLast_cons_of_ne {w : Word} {ws : List Word} (h : ws ≠ []) :
    stripLast (w :: ws) = w :: stripLast ws := by
  cases ws with
  | nil => exact absurd rfl h
  | cons v vs => rfl

theorem stripLast_append :
    ∀ (xs ws : List Word), ws ≠ [] → stripLast (xs ++ ws) = xs ++ stripLast ws := by
  intro xs
  induction xs with
  | nil => intro ws _; rfl
  | cons a as ih =>
      intro ws h
      rw [List.cons_append, stripLast_cons_of_ne (by simp [h]), ih ws h]
      rfl

theorem stripLast_getLast :
    ∀ {l : List Word} {w : Word}, l.getLast? = some w →
      stripLast l = l.dropLast ++ [w.dropLast] := by
  intro l
  induction l with
  | nil => intro w h; simp at h
  | cons v vs ih =>
      intro w h
      cases vs with
      | nil =>
          simp [List.getLast?] at h
          subst h; rfl
      | cons u us =>
          rw [List.getLast?_cons_cons] at h
          rw [stripLast_cons_of_ne (by simp), ih h]
          rfl

theorem GoodSeq_ne_nil {l : List Word} (h : GoodSeq l) : l ≠ [] := by
  cases l with
  | nil => exact absurd h (by simp [GoodSeq])
  | cons v vs => simp

theorem GoodSeq_cons_iff {x : Word} {M : List Word} (h : M ≠ []) :
    GoodSeq (x :: M) ↔ (x ≠ [] ∧ ' ' ∉ x ∧ '\n' ∉ x) ∧ GoodSeq M := by
  cases M with
  | nil => exact absurd rfl h
  | cons v vs => exact Iff.rfl

theorem GoodSeq_suffix :
    ∀ (xs l : List Word), l ≠ [] → GoodSeq (xs ++ l) → GoodSeq l := by
  intro xs
  induction xs with
  | nil => intro l _ h; exact h
  | cons a as ih =>
      intro l hl h
      rw [List.cons_append, GoodSeq_cons_iff (by simp [hl])] at h
      exact ih l hl h.2

theorem GoodSeq_append_mem :
    ∀ (xs l : List Word), l ≠ [] → GoodSeq (xs ++ l) →
      ∀ x ∈ xs, x ≠ [] ∧ ' ' ∉ x ∧ '\n' ∉ x := by
  intro xs
  induction xs with
  | nil => intro l _ _ x hx; simp at hx
  | cons a as ih =>
      intro l hl h x hx
      rw [List.cons_append, GoodSeq_cons_iff (by simp [hl])] at h
      rcases List.mem_cons.mp hx with rfl | hx2
      · exact h.1
      · exact ih l hl h.2 x hx2

theorem GoodSeq_last :
    ∀ {l : List Word} {w : Word}, GoodSeq l → l.getLast? = some w →
      w ≠ [] ∧ ' ' ∉ w ∧ '\n' ∉ w.dropLast ∧ 2 ≤ w.length := by
  intro l
  induction l with
  | nil => intro w h _; exact absurd h (by simp [GoodSeq])
  | cons v vs ih =>
      intro w hg h
      cases vs with
      | nil =>
          simp [List.getLast?] at h
          subst h; exact hg
      | cons u us =>
          rw [List.getLast?_cons_cons] at h
          rw [GoodSeq_cons_iff (by simp)] at hg
          exact ih hg.2 h

theorem GoodSeq_dropLast_mem :
    ∀ {l : List Word}, GoodSeq l → ∀ x ∈ l.dropLast, x ≠ [] ∧ ' ' ∉ x ∧ '\n' ∉ x := by
  intro l
  induction l with
  | nil => intro _ x hx; simp at hx
  | cons v vs ih =>
      intro hg x hx
      cases vs with
      | nil => simp at hx
      | cons u us =>
          rw [GoodSeq_cons_iff (by simp)] at hg
          rw [List.dropLast_cons₂] at hx
          rcases List.mem_cons.mp hx with rfl | hx2
          · exact hg.1
          · exact ih hg.2 x hx2

/-! ### Characterizations of Line.push and Line.clear -/

theorem usizeSub_of_le {a b : Nat} (h : b ≤ a) : usizeSub a b = some (a - b) := by
  unfold usizeSub; rw [if_pos h]

theorem push_eq (l : Line) (word : Word) :
    l.push word =
      (if word.length > l.max_len then none
       else if (if l.words_count ≠ 0 then word.length + 1 else word.length) + l.len ≤ l.max_len
       then
         some ({ l with
                   words := l.words ++ [word]
                   len := l.len + (if l.words_count ≠ 0 then word.length + 1 else word.length)
                   words_count := l.words_count + 1 }, LineState.NextWord)
       else some (l, LineState.Wrap)) := rfl

theorem push_accept {l line2 : Line} {word : Word}
    (h : l.push word = some (line2, LineState.NextWord)) :
    word.length ≤ l.max_len ∧
      line2.words = l.words ++ [word] ∧
      line2.words_count = l.words_count + 1 ∧
      line2.max_len = l.max_len ∧
      line2.len = l.len + (if l.words_count ≠ 0 then word.length + 1 else word.length) ∧
      line2.len ≤ l.max_len := by
  rw [push_eq] at h
  by_cases h1 : word.length > l.max_len
  · rw [if_pos h1] at h; simp at h
  · rw [if_neg h1] at h
    by_cases h2 :
        (if l.words_count ≠ 0 then word.length + 1 else word.length) + l.len ≤ l.max_len
    · rw [if_pos h2] at h
      have hX : ({ l with
            words := l.words ++ [word]
            len := l.len + (if l.words_count ≠ 0 then word.length + 1 else word.length)
            words_count := l.words_count + 1 } : Line) = line2 :=
        congrArg Prod.fst (Option.some.inj h)
      subst hX
      refine ⟨by omega, rfl, rfl, rfl, rfl, ?_⟩
      show l.len + (if l.words_count ≠ 0 then word.length + 1 else word.length) ≤ l.max_len
      omega
    · rw [if_neg h2] at h
      simp at h

theorem push_wrap {l line2 : Line} {word : Word}
    (h : l.push word = some (line2, LineState.Wrap)) :
    line2 = l ∧ word.length ≤ l.max_len ∧
      ¬((if l.words_count ≠ 0 then word.length + 1 else word.length) + l.len ≤ l.max_len) := by
  rw [push_eq] at h
  by_cases h1 : word.length > l.max_len
  · rw [if_pos h1] at h; simp at h
  · rw [if_neg h1] at h
    by_cases h2 :
        (if l.words_count ≠ 0 then word.length + 1 else word.length) + l.len ≤ l.max_len
    · rw [if_pos h2] at h
      simp at h
    · rw [if_neg h2] at h
      have hX : l = line2 := congrArg Prod.fst (Option.some.inj h)
      exact ⟨hX.symm, by omega, h2⟩

theorem push_none {l : Line} {word : Word} (h : l.push word = none) :
    l.max_len < word.length := by
  rw [push_eq] at h
  by_cases h1 : word.length > l.max_len
  · exact h1
  · rw [if_neg h1] at h
    by_cases h2 :
        (if l.words_count ≠ 0 then word.length + 1 else word.length) + l.len ≤ l.max_len
    · rw [if_pos h2] at h; simp at h
    · rw [if_neg h2] at h; simp at h

theorem clear_push {l : Line} {word : Word} (h : word.length ≤ l.max_len) :
    l.clear.push word =
      some ({ words_count := 1, len := word.length, max_len := l.max_len,
              words := [word] }, LineState.NextWord) := by
  rw [push_eq]
  simp [Line.clear, Nat.not_lt.mpr h, h]

/-! ### Sanity of the three rendering closures -/

theorem alignRender_sane (a : Align) (max_len : Nat) {l : Line} (h : LSane max_len l) :
    ∃ f, alignRender a l max_len = some f ∧ tokens f = l.words ∧ '\n' ∉ f ∧
      ((a = Align.Right → f.length = max_len) ∧
       (a = Align.Justify → 2 ≤ l.words_count → f.length = max_len) ∧
       (a = Align.Left → f.length = contentLen l.words) ∧
       (a = Align.Justify → l.words_count = 1 → f.length = contentLen l.words)) := by
  obtain ⟨hc, hl, hle, hne, hall⟩ := h
  cases hw : l.words with
  | nil => exact absurd hw hne
  | cons w ws =>
  rw [hw] at hall
  have hwgood := hall w (List.mem_cons_self w ws)
  have hwsgood : ∀ v ∈ ws, v ≠ [] ∧ ' ' ∉ v ∧ '\n' ∉ v :=
    fun v hv => hall v (List.mem_cons_of_mem w hv)
  cases a with
  | Left =>
      refine ⟨w ++ (ws.map (fun v => ' ' :: v)).flatten, ?_, ?_, ?_, ?_, ?_, ?_, ?_⟩
      · simp [alignRender, renderLeft, hw]
      · exact tokens_leftJoin ws w hwgood.1 hwgood.2.1
          (fun v hv => ⟨(hwsgood v hv).1, (hwsgood v hv).2.1⟩)
      · intro hmem
        rcases List.mem_append.mp hmem with h1 | h2
        · exact hwgood.2.2 h1
        · exact nl_not_mem_sep_flatten (fun v hv => (hwsgood v hv).2.2) h2
      · intro habs; exact Align.noConfusion habs
      · intro habs; exact Align.noConfusion habs
      · intro _
        have hcl : contentLen (w :: ws) = w.length + ws.length + (ws.map List.length).sum :=
          contentLen_expand ws w
        rw [List.length_append, length_sep_flatten]
        omega
      · intro habs; exact Align.noConfusion habs
  | Right =>
      refine ⟨List.replicate (max_len - l.len) ' ' ++ w ++ (ws.map (fun v => ' ' :: v)).flatten,
        ?_, ?_, ?_, ?_, ?_, ?_, ?_⟩
      · simp [alignRender, renderRight, usizeSub_of_le hle, hw]
      · rw [List.append_assoc, tokens_replicate_append]
        exact tokens_leftJoin ws w hwgood.1 hwgood.2.1
          (fun v hv => ⟨(hwsgood v hv).1, (hwsgood v hv).2.1⟩)
      · intro hmem
        rcases List.mem_append.mp hmem with h1 | h2
        · rcases List.mem_append.mp h1 with h3 | h4
          · exact nl_not_mem_replicate _ h3
          · exact hwgood.2.2 h4
        · exact nl_not_mem_sep_flatten (fun v hv => (hwsgood v hv).2.2) h2
      · intro _
        have hcl : contentLen l.words = w.length + ws.length + (ws.map List.length).sum := by
          rw [hw]; exact contentLen_expand ws w
        rw [List.length_append, List.length_append, List.length_replicate,
          length_sep_flatten]
        omega
      · intro habs; exact Align.noConfusion habs
      · intro habs; exact Align.noConfusion habs
      · intro habs; exact Align.noConfusion habs
  | Justify =>
      have hcpos : l.words_count ≠ 0 := by
        rw [hc, hw]; simp
      have hgaps : (if l.words_count = 1 then some 1 else usizeSub l.words_count 1) =
          some (if l.words_count = 1 then 1 else l.words_count - 1) := by
        by_cases h1 : l.words_count = 1
        · rw [if_pos h1, if_pos h1]
        · rw [if_neg h1, if_neg h1, usizeSub_of_le (by omega)]
      refine ⟨w ++ justifyGaps ((max_len - l.len) / (if l.words_count = 1 then 1 else l.words_count - 1))
          ((max_len - l.len) % (if l.words_count = 1 then 1 else l.words_count - 1)) ws,
        ?_, ?_, ?_, ?_, ?_, ?_, ?_⟩
      · simp only [alignRender, renderJustify, usizeSub_of_le hle, hgaps, hw]
      · exact tokens_justifyGaps _ ws _ w hwgood.1 hwgood.2.1
          (fun v hv => ⟨(hwsgood v hv).1, (hwsgood v hv).2.1⟩)
      · intro hmem
        rcases List.mem_append.mp hmem with h1 | h2
        · exact hwgood.2.2 h1
        · exact nl_not_mem_justifyGaps _ ws _ (fun v hv => (hwsgood v hv).2.2) h2
      · intro habs; exact Align.noConfusion habs
      · intro _ h2
        have hcws : l.words_count = ws.length + 1 := by rw [hc, hw]; simp
        have hg1 : ¬(l.words_count = 1) := by omega
        rw [if_neg hg1]
        have hgv : l.words_count - 1 = ws.length := by omega
        rw [hgv]
        have hwsp : 0 < ws.length := by omega
        have hcl : contentLen l.words = w.length + ws.length + (ws.map List.length).sum := by
          rw [hw]; exact contentLen_expand ws w
        rw [List.length_append, length_justifyGaps]
        have hdm := Nat.div_add_mod (max_len - l.len) ws.length
        have hmodlt : (max_len - l.len) % ws.length < ws.length :=
          Nat.mod_lt _ hwsp
        have hminr : min ((max_len - l.len) % ws.length) ws.length =
            (max_len - l.len) % ws.length := Nat.min_eq_left (Nat.le_of_lt hmodlt)
        rw [hminr, Nat.mul_succ]
        omega
      · intro habs; exact Align.noConfusion habs
      · intro _ h1
        have hcws : l.words_count = ws.length + 1 := by rw [hc, hw]; simp
        have hlen0 : ws.length = 0 := by omega
        have hws : ws = [] := List.length_eq_zero.mp hlen0
        subst hws
        simp [justifyGaps, contentLen]

/-! ### The structure of a finished run -/

theorem processGo_struct (render : Line → Nat → Option (List Char))
    (P : Line → List Char → Prop) (max_len : Nat)
    (hrender : ∀ l, LSane max_len l →
      ∃ f, render l max_len = some f ∧ tokens f = l.words ∧ '\n' ∉ f ∧ P l f) :
    ∀ (ws : List Word) (line : Line) (out res : List Char),
      line.words_count = line.words.length →
      line.len = contentLen line.words →
      line.len ≤ max_len →
      line.max_len = max_len →
      GoodSeq (line.words ++ ws) →
      processGo render max_len ws line out = Outcome.finished res →
      ∃ frags : List (List Char),
        res = out ++ (frags.map (fun f => f ++ ['\n'])).flatten ∧
        (frags.map tokens).flatten = stripLast (line.words ++ ws) ∧
        ∀ f ∈ frags, '\n' ∉ f ∧
          ∃ l, LSane max_len l ∧ render l max_len = some f ∧ tokens f = l.words ∧ P l f := by
  intro ws
  induction ws with
  | nil =>
      intro line out res hcount hlen hle hmax hgood hrun
      rw [List.append_nil] at hgood
      have hwne : line.words ≠ [] := GoodSeq_ne_nil hgood
      have hcpos : line.words_count > 0 := by
        rw [hcount]; exact List.length_pos.mpr hwne
      have hlw : line.words.getLast? = some (line.words.getLast hwne) :=
        List.getLast?_eq_getLast _ hwne
      have hlast := GoodSeq_last hgood hlw
      have hlenge : 1 ≤ line.len := by
        have := getLast?_length_le_contentLen hlw
        omega
      simp only [processGo, processEnd, if_pos hcpos, hlw,
        usizeSub_of_le hlenge] at hrun
      set lw := line.words.getLast hwne with hlwdef
      set line2 : Line :=
        { line with
            words := line.words.dropLast ++ [lw.dropLast]
            len := line.len - 1 } with hline2
      have hsplit : line.words.dropLast ++ [lw] = line.words :=
        List.dropLast_concat_getLast hwne
      have hsane : LSane max_len line2 := by
        refine ⟨?_, ?_, ?_, ?_, ?_⟩
        · show line.words_count = (line.words.dropLast ++ [lw.dropLast]).length
          rw [hcount, List.length_append, List.length_dropLast]
          have : 1 ≤ line.words.length := List.length_pos.mpr hwne
          simp
          omega
        · show line.len - 1 = contentLen (line.words.dropLast ++ [lw.dropLast])
          have h1 : contentLen (line.words.dropLast ++ [lw]) = contentLen line.words := by
            rw [hsplit]
          rw [contentLen_append_singleton] at h1
          rw [contentLen_append_singleton, List.length_dropLast]
          have h2 : 2 ≤ lw.length := hlast.2.2.2
          omega
        · show line.len - 1 ≤ max_len
          omega
        · simp
        · intro x hx
          rcases List.mem_append.mp hx with h1 | h2
          · exact GoodSeq_dropLast_mem hgood x h1
          · have hx2 : x = lw.dropLast := by simpa using h2
            subst hx2
            refine ⟨?_, ?_, hlast.2.2.1⟩
            · have h2 : 2 ≤ lw.length := hlast.2.2.2
              have : 1 ≤ lw.dropLast.length := by
                rw [List.length_dropLast]; omega
              exact List.length_pos.mp (by omega)
            · intro hsp
              exact hlast.2.1 ((List.dropLast_sublist lw).subset hsp)
      obtain ⟨f, hf, htok, hnl, hP⟩ := hrender line2 hsane
      rw [hf] at hrun
      injection hrun with hres
      refine ⟨[f], ?_, ?_, ?_⟩
      · rw [← hres]; simp
      · rw [List.append_nil, stripLast_getLast hlw]
        simp only [List.map_cons, List.map_nil, List.flatten_cons, List.flatten_nil,
          List.append_nil, htok]
      · intro g hg
        have : g = f := by simpa using hg
        subst this
        exact ⟨hnl, line2, hsane, hf, htok, hP⟩
  | cons word rest ih =>
      intro line out res hcount hlen hle hmax hgood hrun
      simp only [processGo] at hrun
      cases hpush : line.push word with
      | none => rw [hpush] at hrun; simp at hrun
      | some pr =>
        obtain ⟨line2, st⟩ := pr
        cases st with
        | NextWord =>
            rw [hpush] at hrun
            obtain ⟨hwl, hw2, hc2, hm2, hl2, hle2⟩ := push_accept hpush
            have hcount2 : line2.words_count = line2.words.length := by
              rw [hc2, hw2, hcount]; simp
            have hlen2 : line2.len = contentLen line2.words := by
              rw [hl2, hw2, hlen, contentLen_append_singleton]
              by_cases hz : line.words = []
              · have hz0 : line.words_count = 0 := by rw [hcount, hz]; rfl
                rw [if_pos hz, if_neg (by omega), hz]
                simp [contentLen]
              · have hz0 : line.words_count ≠ 0 := by
                  rw [hcount]
                  have := List.length_pos.mpr hz
                  omega
                rw [if_neg hz, if_pos hz0]
                omega
            have hle2m : line2.len ≤ max_len := by rw [← hmax]; exact hle2
            have hmax2 : line2.max_len = max_len := by rw [hm2, hmax]
            have hgood2 : GoodSeq (line2.words ++ rest) := by
              rw [hw2, List.append_assoc]
              simpa using hgood
            obtain ⟨frags, hres, htoks, hper⟩ :=
              ih line2 out res hcount2 hlen2 hle2m hmax2 hgood2 hrun
            refine ⟨frags, hres, ?_, hper⟩
            rw [htoks, hw2, List.append_assoc]
            simp
        | Wrap =>
            rw [hpush] at hrun
            obtain ⟨hl2eq, hwl, hcondfail⟩ := push_wrap hpush
            have hczero : line.words_count ≠ 0 := by
              intro h0
              have hwnil : line.words = [] := by
                have := hcount
                rw [h0] at this
                exact (List.length_eq_zero.mp this.symm)
              rw [if_neg (by omega), hlen, hwnil] at hcondfail
              simp [contentLen] at hcondfail
              omega
            have hwne : line.words ≠ [] := by
              intro hnil
              apply hczero
              rw [hcount, hnil]; rfl
            have hsane : LSane max_len line :=
              ⟨hcount, hlen, hle, hwne,
                fun x hx => GoodSeq_append_mem line.words (word :: rest) (by simp) hgood x hx⟩
            obtain ⟨f, hf, htok, hnl, hP⟩ := hrender line hsane
            rw [hf, clear_push hwl] at hrun
            have hgoodsuffix : GoodSeq (word :: rest) :=
              GoodSeq_suffix line.words (word :: rest) (by simp) hgood
            obtain ⟨frags, hres, htoks, hper⟩ :=
              ih { words_count := 1, len := word.length, max_len := line.max_len,
                   words := [word] }
                (out ++ f ++ ['\n']) res (by simp) (by simp [contentLen])
                (by simpa [hmax] using hwl) (by simpa using hmax)
                (by simpa using hgoodsuffix) hrun
            refine ⟨f :: frags, ?_, ?_, ?_⟩
            · rw [hres]; simp
            · simp only [List.map_cons, List.flatten_cons, htok]
              have htoks2 : (frags.map tokens).flatten = stripLast (word :: rest) := by
                rw [htoks]; simp
              rw [htoks2, stripLast_append line.words (word :: rest) (by simp)]
            · intro g hg
              rcases List.mem_cons.mp hg with rfl | hg2
              · exact ⟨hnl, line, hsane, hf, htok, hP⟩
              · exact hper g hg2

/-! ### Decomposing the emitted output into its lines -/

theorem linesOf_newline_flatten :
    ∀ (frags : List (List Char)), (∀ f ∈ frags, '\n' ∉ f) →
      linesOf ((frags.map (fun f => f ++ ['\n'])).flatten) = frags ++ [[]] := by
  intro frags
  induction frags with
  | nil => intro _; rfl
  | cons f fs ih =>
      intro hall
      have hshape : ((f :: fs).map (fun f => f ++ ['\n'])).flatten =
          f ++ '\n' :: (fs.map (fun f => f ++ ['\n'])).flatten := by
        simp
      rw [hshape]
      unfold linesOf
      rw [splitOnChar_append_cons,
        splitOnChar_of_not_mem (hall f (List.mem_cons_self f fs))]
      have := ih (fun g hg => hall g (List.mem_cons_of_mem f hg))
      unfold linesOf at this
      rw [this]
      rfl

theorem wordsOfOutput_flatten :
    ∀ (frags : List (List Char)), (∀ f ∈ frags, '\n' ∉ f) →
      wordsOfOutput ((frags.map (fun f => f ++ ['\n'])).flatten) =
        (frags.map tokens).flatten := by
  intro frags hall
  unfold wordsOfOutput
  rw [linesOf_newline_flatten frags hall]
  simp [tokens_nil]

/-- Inverting the final `match` of `run`: a `returned` outcome comes from a
`finished` `process` and carries `Ok(())`. -/
theorem run_returned {content : List Char} {max_len : Nat} {a : Align}
    {out : List Char} {r : Except String Unit}
    (h : run content max_len a = RunOutcome.returned out r) :
    process (alignRender a) (splitOnChar ' ' content) max_len = Outcome.finished out ∧
      r = Except.ok () := by
  unfold run at h
  cases hp : process (alignRender a) (splitOnChar ' ' content) max_len with
  | panicked o => rw [hp] at h; simp at h
  | finished o =>
      rw [hp] at h
      injection h with h1 h2
      subst h1
      exact ⟨rfl, h2.symm⟩

/-- The structure of any completed run on a well-formed input: the output is
a flat concatenation of newline-terminated rendered lines; each line is the
rendering of a sane packed `Line`; the recovered words are the input words
with the final trim applied. -/
theorem run_struct (content : List Char) (max_len : Nat) (a : Align)
    (out : List Char) (r : Except String Unit)
    (hgood : GoodSeq (splitOnChar ' ' content))
    (hrun : run content max_len a = RunOutcome.returned out r) :
    ∃ frags : List (List Char),
      out = (frags.map (fun f => f ++ ['\n'])).flatten ∧
      (frags.map tokens).flatten = stripLast (splitOnChar ' ' content) ∧
      ∀ f ∈ frags, '\n' ∉ f ∧
        ∃ l, LSane max_len l ∧ alignRender a l max_len = some f ∧ tokens f = l.words ∧
          ((a = Align.Right → f.length = max_len) ∧
           (a = Align.Justify → 2 ≤ l.words_count → f.length = max_len) ∧
           (a = Align.Left → f.length = contentLen l.words) ∧
           (a = Align.Justify → l.words_count = 1 → f.length = contentLen l.words)) := by
  obtain ⟨hp, -⟩ := run_returned hrun
  unfold process at hp
  obtain ⟨frags, hres, htoks, hper⟩ :=
    processGo_struct (alignRender a)
      (fun l f => ((a = Align.Right → f.length = max_len) ∧
        (a = Align.Justify → 2 ≤ l.words_count → f.length = max_len) ∧
        (a = Align.Left → f.length = contentLen l.words) ∧
        (a = Align.Justify → l.words_count = 1 → f.length = contentLen l.words)))
      max_len (fun l hl => alignRender_sane a max_len hl)
      (splitOnChar ' ' content) (Line.new max_len) [] out rfl rfl (Nat.zero_le _) rfl
      (by simpa [Line.new] using hgood) hp
  refine ⟨frags, by simpa using hres, ?_, hper⟩
  rw [htoks]
  simp [Line.new]

/-! ### Further facts used by individual claims -/

theorem justifyGaps_zero_zero :
    ∀ ws : List Word, justifyGaps 0 0 ws = (ws.map (fun v => ' ' :: v)).flatten := by
  intro ws
  induction ws with
  | nil => rfl
  | cons v vs ih => simp [justifyGaps, ih]

/-- When the content exactly fills the target width there is no free space,
so the Right and Justify closures emit the same characters as the Left one. -/
theorem renderFill_coincide (l : Line) (len : Nat)
    (hcount : l.words_count = l.words.length)
    (hfill : l.len = len) :
    renderRight l len = renderLeft l len ∧ renderJustify l len = renderLeft l len := by
  have hsub : usizeSub len l.len = some 0 := by
    rw [hfill]
    unfold usizeSub
    simp
  constructor
  · unfold renderRight renderLeft
    rw [hsub]
    cases l.words with
    | nil => rfl
    | cons w ws => simp
  · unfold renderJustify renderLeft
    rw [hsub]
    cases hw : l.words with
    | nil =>
        have hc0 : l.words_count = 0 := by rw [hcount, hw]; rfl
        rw [hc0]
        simp [usizeSub]
    | cons w ws =>
        by_cases h1 : l.words_count = 1
        · rw [if_pos h1]
          simp [justifyGaps_zero_zero]
        · rw [if_neg h1]
          have hc : l.words_count = ws.length + 1 := by rw [hcount, hw]; simp
          rw [usizeSub_of_le (by omega)]
          simp [justifyGaps_zero_zero]

/-- A one-word line degenerates to the Left layout under Justify at any
content length: the gap loop has no word to run on. -/
theorem renderJustify_single (l : Line) (len : Nat)
    (hc1 : l.words_count = 1) (hcount : l.words_count = l.words.length)
    (hle : l.len ≤ len) :
    renderJustify l len = renderLeft l len := by
  unfold renderJustify renderLeft
  rw [usizeSub_of_le hle, if_pos hc1]
  cases hw : l.words with
  | nil =>
      exfalso
      rw [hw] at hcount
      rw [hc1] at hcount
      simp at hcount
  | cons w ws =>
      have hlen0 : ws.length = 0 := by
        rw [hw] at hcount
        rw [hc1] at hcount
        simp only [List.length_cons] at hcount
        omega
      have hws : ws = [] := List.length_eq_zero.mp hlen0
      subst hws
      simp [justifyGaps]

/-- The gap layout produced by the Justify closure, written positionally: the
gap before the word at offset `i` consists of one mandatory space, `big_jump`
extra spaces, and one further extra space exactly when `i < small_jump`. -/
theorem justifyGaps_eq_mapIdx (big : Nat) :
    ∀ (ws : List Word) (small : Nat),
      justifyGaps big small ws =
        (ws.mapIdx (fun i v =>
          List.replicate (1 + big + if i < small then 1 else 0) ' ' ++ v)).flatten := by
  intro ws
  induction ws with
  | nil => intro small; rfl
  | cons v vs ih =>
      intro small
      rw [justifyGaps_cons, List.mapIdx_cons, List.flatten_cons]
      have hfun : (fun i (u : Word) =>
          List.replicate (1 + big + if i + 1 < small then 1 else 0) ' ' ++ u) =
          (fun i (u : Word) =>
            List.replicate
              (1 + big + if i < (if small ≠ 0 then small - 1 else small) then 1 else 0)
              ' ' ++ u) := by
        funext i u
        congr 3
        by_cases h : small = 0
        · simp [h]
        · have hiff : (i + 1 < small) = (i < small - 1) := by
            apply propext
            omega
          simp [h, hiff]
      rw [hfun, ← ih]
      have ho : (if 0 < small then 1 else 0) = (if small ≠ 0 then 1 else 0) := by
        by_cases h : small = 0 <;> simp [h]
      rw [ho]
      have harith : 1 + big + (if small ≠ 0 then 1 else 0) =
          (big + (if small ≠ 0 then 1 else 0)) + 1 := by omega
      rw [harith, List.replicate_succ]
      simp [List.append_assoc]

/-- If some word of the remaining input is longer than the width, the loop of
`process` can only end in a panic, whatever has happened so far. -/
theorem processGo_panics_of_long (render : Line → Nat → Option (List Char)) (max_len : Nat) :
    ∀ (ws : List Word) (line : Line) (out : List Char),
      (∃ w ∈ ws, max_len < w.length) → line.max_len = max_len →
      ∃ o, processGo render max_len ws line out = Outcome.panicked o := by
  intro ws
  induction ws with
  | nil => intro line out h _; simp at h
  | cons word rest ih =>
      intro line out h hmax
      cases hpush : line.push word with
      | none => exact ⟨out, by simp [processGo, hpush]⟩
      | some pr =>
        obtain ⟨line2, st⟩ := pr
        have hwordok : word.length ≤ max_len := by
          cases st
          · exact hmax ▸ (push_wrap hpush).2.1
          · exact hmax ▸ (push_accept hpush).1
        have hrest : ∃ w ∈ rest, max_len < w.length := by
          obtain ⟨w, hw, hlong⟩ := h
          rcases List.mem_cons.mp hw with rfl | hw2
          · omega
          · exact ⟨w, hw2, hlong⟩
        cases st with
        | NextWord =>
            obtain ⟨o, ho⟩ := ih line2 out hrest
              (by rw [(push_accept hpush).2.2.2.1, hmax])
            exact ⟨o, by simp only [processGo]; rw [hpush]; exact ho⟩
        | Wrap =>
            cases hrender : render line max_len with
            | none => exact ⟨out, by simp only [processGo]; rw [hpush, hrender]⟩
            | some f =>
              cases hcp : line.clear.push word with
              | none =>
                  exact ⟨out ++ f, by simp only [processGo]; rw [hpush, hrender, hcp]⟩
              | some pr2 =>
                obtain ⟨line3, st3⟩ := pr2
                have hm3 : line3.max_len = max_len := by
                  cases st3
                  · rw [(push_wrap hcp).1]
                    simpa [Line.clear] using hmax
                  · rw [(push_accept hcp).2.2.2.1]
                    simpa [Line.clear] using hmax
                obtain ⟨o, ho⟩ := ih line3 (out ++ f ++ ['\n']) hrest hm3
                exact ⟨o, by simp only [processGo]; rw [hpush, hrender, hcp]; exact ho⟩

/-! ### The claims -/

/-- C1: for the input string `Hi there! My name is Roben Li.` followed by one
line terminator, running the aligner with maximum width 10 and mode Justify
writes exactly the characters `Hi  there!`, terminator, `My name is`,
terminator, `Roben  Li.`, terminator to the sink, and the run completes. -/
theorem c1_scenario_width10_justify :
    run ['H', 'i', ' ', 't', 'h', 'e', 'r', 'e', '!', ' ', 'M', 'y', ' ', 'n', 'a',
        'm', 'e', ' ', 'i', 's', ' ', 'R', 'o', 'b', 'e', 'n', ' ', 'L', 'i', '.', '\n']
      10 Align.Justify =
      RunOutcome.returned
        ['H', 'i', ' ', ' ', 't', 'h', 'e', 'r', 'e', '!', '\n', 'M', 'y', ' ', 'n',
         'a', 'm', 'e', ' ', 'i', 's', '\n', 'R', 'o', 'b', 'e', 'n', ' ', ' ', 'L',
         'i', '.', '\n']
        (Except.ok ()) := by decide

/-- C2 (counterexample): with width 6 and mode Left, the run on `ab cd x`
plus terminator completes, its one non-final rendered line is `ab cd`, which
holds two words (so the claimed exception for a single word under Left does
not apply), yet its width is 5, not the configured 6. -/
theorem c2_counterexample :
    run ['a', 'b', ' ', 'c', 'd', ' ', 'x', '\n'] 6 Align.Left =
        RunOutcome.returned ['a', 'b', ' ', 'c', 'd', '\n', 'x', '\n'] (Except.ok ()) ∧
      (linesOf ['a', 'b', ' ', 'c', 'd', '\n', 'x', '\n']).dropLast.dropLast =
        [['a', 'b', ' ', 'c', 'd']] ∧
      (tokens ['a', 'b', ' ', 'c', 'd']).length = 2 ∧
      (['a', 'b', ' ', 'c', 'd'] : List Char).length ≠ 6 := by decide

/-- C2 (amended): on a well-formed input, every rendered line other than the
final one has total emitted width exactly the configured maximum width
whenever the mode is Right, or the mode is Justify and the line holds at
least two words; when the mode is Left (any word count), or the mode is
Justify and the line holds exactly one word, the line is emitted at its
content width (word lengths plus one space per gap) instead. -/
theorem c2_amended_nonfinal_width (content : List Char) (max_len : Nat) (a : Align)
    (out : List Char) (r : Except String Unit)
    (hgood : GoodSeq (splitOnChar ' ' content))
    (hrun : run content max_len a = RunOutcome.returned out r) :
    ∀ lne ∈ (linesOf out).dropLast.dropLast,
      ((a = Align.Right ∨ (a = Align.Justify ∧ 2 ≤ (tokens lne).length)) →
        lne.length = max_len) ∧
      ((a = Align.Left ∨ (a = Align.Justify ∧ (tokens lne).length = 1)) →
        lne.length = contentLen (tokens lne)) := by
  obtain ⟨frags, hout, htoks, hper⟩ := run_struct content max_len a out r hgood hrun
  intro lne hmem
  rw [hout, linesOf_newline_flatten frags (fun f hf => (hper f hf).1)] at hmem
  have hdl : (frags ++ [([] : List Char)]).dropLast = frags := by
    rw [List.dropLast_concat]
  rw [hdl] at hmem
  have hmem2 : lne ∈ frags := (List.dropLast_sublist frags).subset hmem
  obtain ⟨-, l, hsane, hrend, htokeq, hR, hJ2, hL, hJ1⟩ := hper lne hmem2
  have hlt := congrArg List.length htokeq
  have hcw := hsane.1
  constructor
  · rintro (hA | ⟨hA, h2⟩)
    · exact hR hA
    · apply hJ2 hA
      simp only [hcw]
      omega
  · rintro (hA | ⟨hA, h1⟩)
    · rw [htokeq]
      exact hL hA
    · rw [htokeq]
      apply hJ1 hA
      simp only [hcw]
      omega

/-- C2 (amended) witness: with width 6 and mode Right on `ab cd x` plus
terminator, the one non-final rendered line has width exactly 6 (and the
content-width clause holds vacuously for mode Right). -/
theorem c2_amended_witness :
    GoodSeq (splitOnChar ' ' ['a', 'b', ' ', 'c', 'd', ' ', 'x', '\n']) ∧
      ∀ lne ∈ (linesOf [' ', 'a', 'b', ' ', 'c', 'd', '\n', ' ', ' ', ' ', ' ', ' ',
          'x', '\n']).dropLast.dropLast,
        ((Align.Right = Align.Right ∨
            (Align.Right = Align.Justify ∧ 2 ≤ (tokens lne).length)) →
          lne.length = 6) ∧
        ((Align.Right = Align.Left ∨
            (Align.Right = Align.Justify ∧ (tokens lne).length = 1)) →
          lne.length = contentLen (tokens lne)) :=
  ⟨by decide,
    c2_amended_nonfinal_width ['a', 'b', ' ', 'c', 'd', ' ', 'x', '\n'] 6 Align.Right
      [' ', 'a', 'b', ' ', 'c', 'd', '\n', ' ', ' ', ' ', ' ', ' ', 'x', '\n']
      (Except.ok ()) (by decide) (by decide)⟩

/-- C3 (counterexample): with width 10 and mode Justify on `Roben Li.` plus
terminator, the run completes with the single (hence final) rendered line
`Roben  Li.`; its words are `Roben` and `Li.`, whose Left-mode rendering is
`Roben Li.`; the content length 9 differs from the target width 10, so the
claimed exception does not apply, yet the final line is not the Left-mode
rendering: the final line is rendered by the configured mode. -/
theorem c3_counterexample :
    run ['R', 'o', 'b', 'e', 'n', ' ', 'L', 'i', '.', '\n'] 10 Align.Justify =
        RunOutcome.returned ['R', 'o', 'b', 'e', 'n', ' ', ' ', 'L', 'i', '.', '\n']
          (Except.ok ()) ∧
      (linesOf ['R', 'o', 'b', 'e', 'n', ' ', ' ', 'L', 'i', '.', '\n']).dropLast =
        [['R', 'o', 'b', 'e', 'n', ' ', ' ', 'L', 'i', '.']] ∧
      tokens ['R', 'o', 'b', 'e', 'n', ' ', ' ', 'L', 'i', '.'] =
        [['R', 'o', 'b', 'e', 'n'], ['L', 'i', '.']] ∧
      renderLeft { words_count := 2, len := 9, max_len := 10, words := [['R', 'o', 'b', 'e', 'n'], ['L', 'i', '.']] } 10 =
        some ['R', 'o', 'b', 'e', 'n', ' ', 'L', 'i', '.'] ∧
      contentLen [['R', 'o', 'b', 'e', 'n'], ['L', 'i', '.']] = 9 ∧
      (['R', 'o', 'b', 'e', 'n', ' ', ' ', 'L', 'i', '.'] : List Char) ≠
        ['R', 'o', 'b', 'e', 'n', ' ', 'L', 'i', '.'] := by decide

/-- C3 (amended): on a completed run, every rendered line — the final one
included — is the output of the configured mode's rendering closure on a
sane packed line, so the final line is rendered like every non-final line;
and for every sane line at the target width, the Right rendering coincides
with the Left rendering exactly when the content length equals the target
width, while the Justify rendering coincides exactly when the content length
equals the target width or the line holds a single word. -/
theorem c3_amended_final_line (content : List Char) (max_len : Nat) (a : Align)
    (out : List Char) (r : Except String Unit)
    (hgood : GoodSeq (splitOnChar ' ' content))
    (hrun : run content max_len a = RunOutcome.returned out r) :
    (∀ lne ∈ (linesOf out).dropLast,
        ∃ l, LSane max_len l ∧ alignRender a l max_len = some lne) ∧
    (∀ l : Line, LSane max_len l →
        ((renderRight l max_len = renderLeft l max_len ↔ l.len = max_len) ∧
         (renderJustify l max_len = renderLeft l max_len ↔
           (l.len = max_len ∨ l.words_count = 1)))) := by
  constructor
  · obtain ⟨frags, hout, htoks, hper⟩ := run_struct content max_len a out r hgood hrun
    intro lne hmem
    rw [hout, linesOf_newline_flatten frags (fun f hf => (hper f hf).1),
      List.dropLast_concat] at hmem
    obtain ⟨-, l, hsane, hrend, -⟩ := hper lne hmem
    exact ⟨l, hsane, hrend⟩
  · intro l hsane
    obtain ⟨fL, hfL, -, -, -, -, hL, -⟩ := alignRender_sane Align.Left max_len hsane
    obtain ⟨fR, hfR, -, -, hRlen, -, -, -⟩ := alignRender_sane Align.Right max_len hsane
    have hfL' : renderLeft l max_len = some fL := hfL
    have hfR' : renderRight l max_len = some fR := hfR
    have hfLlen : fL.length = contentLen l.words := hL rfl
    have hfRlen : fR.length = max_len := hRlen rfl
    have hcl : l.len = contentLen l.words := hsane.2.1
    constructor
    · constructor
      · intro heq
        rw [hfR', hfL'] at heq
        have hlen := congrArg List.length (Option.some.inj heq)
        omega
      · intro hfill
        exact (renderFill_coincide l max_len hsane.1 hfill).1
    · constructor
      · intro heq
        by_cases hc1 : l.words_count = 1
        · exact Or.inr hc1
        · obtain ⟨fJ, hfJ, -, -, -, hJ2, -, -⟩ := alignRender_sane Align.Justify max_len hsane
          have hfJ' : renderJustify l max_len = some fJ := hfJ
          have hc2 : 2 ≤ l.words_count := by
            have h1 : l.words_count = l.words.length := hsane.1
            have h2 := List.length_pos.mpr hsane.2.2.2.1
            omega
          have hfJlen : fJ.length = max_len := hJ2 rfl hc2
          rw [hfJ', hfL'] at heq
          have hlen := congrArg List.length (Option.some.inj heq)
          exact Or.inl (by omega)
      · rintro (hfill | hc1)
        · exact (renderFill_coincide l max_len hsane.1 hfill).2
        · exact renderJustify_single l max_len hc1 hsane.1 hsane.2.2.1

/-- C3 (amended) witness: on the scenario run `Roben Li.` plus terminator at
width 10 under Justify, every rendered line of the output is the image of
the Justify closure on a sane line, and the exact coincidence criterion
holds for all sane lines at width 10. -/
theorem c3_amended_witness :
    (∀ lne ∈ (linesOf ['R', 'o', 'b', 'e', 'n', ' ', ' ', 'L', 'i', '.', '\n']).dropLast,
        ∃ l, LSane 10 l ∧ alignRender Align.Justify l 10 = some lne) ∧
    (∀ l : Line, LSane 10 l →
        ((renderRight l 10 = renderLeft l 10 ↔ l.len = 10) ∧
         (renderJustify l 10 = renderLeft l 10 ↔ (l.len = 10 ∨ l.words_count = 1)))) :=
  c3_amended_final_line ['R', 'o', 'b', 'e', 'n', ' ', 'L', 'i', '.', '\n'] 10
    Align.Justify ['R', 'o', 'b', 'e', 'n', ' ', ' ', 'L', 'i', '.', '\n']
    (Except.ok ()) (by decide) (by decide)

/-- C4: the claim says the trailing trim happens only when the input ends
with a line terminator.  The code trims unconditionally: on input `ab` (no
trailing terminator), width 5, mode Left, the last word is rendered as `a`,
not `ab` — the code drops a real character, against the stated intent of its
own comment (`remove last character as it is a terminator`). -/
theorem c4_code_trims_without_terminator :
    run ['a', 'b'] 5 Align.Left = RunOutcome.returned ['a', '\n'] (Except.ok ()) := by
  decide

/-- C5: the claim says empty input produces no output and the run completes
normally.  The code pushes the single empty word produced by splitting the
empty string, then decrements `line.len` from 0, underflowing `usize`: the
modelled (debug-profile) run panics before writing anything, rather than
completing normally. -/
theorem c5_code_empty_input_panics :
    run [] 10 Align.Left = RunOutcome.panicked [] := by decide

/-- C6 (counterexample): on `ab cd xxx` with width 2, the word `xxx` is
longer than the width, and the run does fail — but only after the fragments
`ab` and a terminator have already been written to the sink, contradicting
`before any output is emitted`. -/
theorem c6_counterexample :
    run ['a', 'b', ' ', 'c', 'd', ' ', 'x', 'x', 'x'] 2 Align.Left =
        RunOutcome.panicked ['a', 'b', '\n'] ∧
      (['a', 'b', '\n'] : List Char) ≠ [] := by decide

/-- C6 (amended): whenever some word of the input is longer than the
configured width, the run fails with the WordTooLong panic and never returns
normally; output for lines completed before that word may however already
have been emitted. -/
theorem c6_amended_word_too_long (content : List Char) (max_len : Nat) (a : Align)
    (h : ∃ w ∈ splitOnChar ' ' content, max_len < w.length) :
    ∃ out, run content max_len a = RunOutcome.panicked out := by
  obtain ⟨o, ho⟩ := processGo_panics_of_long (alignRender a) max_len
    (splitOnChar ' ' content) (Line.new max_len) [] h rfl
  refine ⟨o, ?_⟩
  unfold run process
  rw [ho]

/-- C6 (amended) witness: the run on `ab cd xxx` with width 2 panics. -/
theorem c6_amended_witness :
    ∃ out, run ['a', 'b', ' ', 'c', 'd', ' ', 'x', 'x', 'x'] 2 Align.Left =
      RunOutcome.panicked out :=
  c6_amended_word_too_long ['a', 'b', ' ', 'c', 'd', ' ', 'x', 'x', 'x'] 2 Align.Left
    ⟨['x', 'x', 'x'], by decide, by decide⟩

/-- C7 (counterexample): on input `ab` (no trailing terminator), width 5,
mode Left, the run completes but the words recovered from the output are
`[a]`, not the original word sequence `[ab]`: the unconditional final trim
breaks the round trip. -/
theorem c7_counterexample :
    run ['a', 'b'] 5 Align.Left = RunOutcome.returned ['a', '\n'] (Except.ok ()) ∧
      wordsOfOutput ['a', '\n'] = [['a']] ∧
      splitOnChar ' ' ['a', 'b'] = [['a', 'b']] ∧
      ([['a']] : List Word) ≠ [['a', 'b']] := by decide

/-- C7 (amended): on a well-formed input (nonempty words, line terminators
at most as the last character of the last word, last word of length at least
two), the words recovered from the emitted output — split on line
terminators, separator runs collapsed, empty pieces dropped — are exactly the
input words with the last character of the final word removed. -/
theorem c7_amended_round_trip (content : List Char) (max_len : Nat) (a : Align)
    (out : List Char) (r : Except String Unit)
    (hgood : GoodSeq (splitOnChar ' ' content))
    (hrun : run content max_len a = RunOutcome.returned out r) :
    wordsOfOutput out = stripLast (splitOnChar ' ' content) := by
  obtain ⟨frags, hout, htoks, hper⟩ := run_struct content max_len a out r hgood hrun
  rw [hout, wordsOfOutput_flatten frags (fun f hf => (hper f hf).1), htoks]

/-- C7 (amended) witness: on `ab cd x` plus terminator, width 6, mode Left,
the recovered words are `ab`, `cd`, `x` — the input words with the trailing
terminator stripped from the last. -/
theorem c7_amended_witness :
    GoodSeq (splitOnChar ' ' ['a', 'b', ' ', 'c', 'd', ' ', 'x', '\n']) ∧
      wordsOfOutput ['a', 'b', ' ', 'c', 'd', '\n', 'x', '\n'] =
        stripLast (splitOnChar ' ' ['a', 'b', ' ', 'c', 'd', ' ', 'x', '\n']) :=
  ⟨by decide,
    c7_amended_round_trip ['a', 'b', ' ', 'c', 'd', ' ', 'x', '\n'] 6 Align.Left
      ['a', 'b', ' ', 'c', 'd', '\n', 'x', '\n'] (Except.ok ()) (by decide) (by decide)⟩

/-- C8: the Justify closure renders a line as its first word followed, for
the word at gap offset `i`, by one mandatory space, `big_jump` extra spaces
with `big_jump` the quotient of the free space by the gap count
(`max(word_count - 1, 1)`), and one further extra space exactly for the first
`remainder` gaps in left-to-right order, `remainder` being the rest of that
division. -/
theorem c8_justify_distribution (l : Line) (len : Nat) (w : Word) (ws : List Word)
    (hwords : l.words = w :: ws)
    (hcount : l.words_count = l.words.length)
    (hle : l.len ≤ len) :
    renderJustify l len =
      some (w ++ (ws.mapIdx (fun i v =>
        List.replicate
          (1 + (len - l.len) / (if l.words_count = 1 then 1 else l.words_count - 1) +
            if i < (len - l.len) % (if l.words_count = 1 then 1 else l.words_count - 1)
            then 1 else 0) ' ' ++ v)).flatten) := by
  unfold renderJustify
  rw [usizeSub_of_le hle]
  have hcpos : l.words_count ≠ 0 := by rw [hcount, hwords]; simp
  have hgaps : (if l.words_count = 1 then some 1 else usizeSub l.words_count 1) =
      some (if l.words_count = 1 then 1 else l.words_count - 1) := by
    by_cases h1 : l.words_count = 1
    · rw [if_pos h1, if_pos h1]
    · rw [if_neg h1, if_neg h1, usizeSub_of_le (by omega)]
  rw [hgaps, hwords]
  show some (w ++ justifyGaps
      ((len - l.len) / (if l.words_count = 1 then 1 else l.words_count - 1))
      ((len - l.len) % (if l.words_count = 1 then 1 else l.words_count - 1)) ws) = _
  rw [justifyGaps_eq_mapIdx]

/-- C8 witness: a line of four one-character words at width 12 has free
space 5 over 3 gaps, so `big_jump = 1`, `remainder = 2`, and the gaps get
2, 2 and 1 extra spaces beyond the mandatory one: `a   b   c  d`. -/
theorem c8_justify_distribution_witness :
    renderJustify { words_count := 4, len := 7, max_len := 12, words := [['a'], ['b'], ['c'], ['d']] } 12 =
      some ['a', ' ', ' ', ' ', 'b', ' ', ' ', ' ', 'c', ' ', ' ', 'd'] :=
  (c8_justify_distribution _ 12 ['a'] [['b'], ['c'], ['d']] rfl (by decide)
    (by decide)).trans (by decide)

/-- C9: whenever `push` is called with a word that fits the width on its own
and answers `Wrap` (rejection), the line is left completely unmodified: the
resulting line equals the original, hence so do its word sequence,
`words_count` and recorded content length. -/
theorem c9_push_rejected_frame (l line2 : Line) (word : Word)
    (_hw : word.length ≤ l.max_len)
    (h : l.push word = some (line2, LineState.Wrap)) :
    line2 = l :=
  (push_wrap h).1

/-- C9 witness: pushing `x` onto a full line of width 3 answers `Wrap` and
returns the line unchanged. -/
theorem c9_push_rejected_frame_witness :
    (['x'] : Word).length ≤
        ({ words_count := 1, len := 3, max_len := 3, words := [['a', 'b', 'c']] } : Line).max_len ∧
      ({ words_count := 1, len := 3, max_len := 3, words := [['a', 'b', 'c']] } : Line) =
        { words_count := 1, len := 3, max_len := 3, words := [['a', 'b', 'c']] } :=
  ⟨by decide,
    c9_push_rejected_frame
      { words_count := 1, len := 3, max_len := 3, words := [['a', 'b', 'c']] }
      { words_count := 1, len := 3, max_len := 3, words := [['a', 'b', 'c']] }
      ['x'] (by decide) (by decide)⟩

/-- C10: whenever `run` returns instead of panicking, the value on its
`Result` channel is `Ok(())`: no input, width, mode or sink behaviour makes
it return an error value. -/
theorem c10_run_result_ok (content : List Char) (max_len : Nat) (a : Align)
    (out : List Char) (r : Except String Unit)
    (h : run content max_len a = RunOutcome.returned out r) :
    r = Except.ok () :=
  (run_returned h).2

/-- C10 witness: a completed concrete run carries `Ok(())`. -/
theorem c10_run_result_ok_witness :
    run ['h', 'i'] 5 Align.Left = RunOutcome.returned ['h', '\n'] (Except.ok ()) ∧
      (Except.ok () : Except String Unit) = Except.ok () :=
  ⟨by decide,
    c10_run_result_ok ['h', 'i'] 5 Align.Left ['h', '\n'] (Except.ok ()) (by decide)⟩

end TextAligner
